import Mathlib

/-!
Verification of the numeric utilities of the `gymmeforce` reinforcement-learning
toolkit (`gymmeforce/common/utils.py`): the replay buffers (`RingBuffer`,
`ReplayBuffer`), the epsilon-greedy policy (`egreedy_police`), the decay
schedules (`exponential_decay`, `piecewise_linear_decay`) and the discounted
return computation (`discounted_sum_rewards`).

Numeric conventions of the embedding: Python floats are modelled by exact
rationals `ℚ` (reals `ℝ` where `exp`/`log` are involved), the pseudorandom
stream consumed by the sampler is an explicit list of draws, and the numpy
storage arrays (whose indices are always in range at each use site) are
modelled as total functions from `ℕ`.
-/

/-- Result of running the retry loop of `ReplayBuffer._generate_idxs` against a
finite prefix of the pseudorandom stream.  `error` is the `ValueError` that
`np.random.randint(0, n)` raises when `n <= 0`; `exhausted` means the supplied
stream of draws ran out while the loop was still retrying. -/
inductive GenResult where
  | ok (start_idxs end_idxs : List ℕ)
  | error
  | exhausted
  deriving DecidableEq, Repr

/-- The loop body of `ReplayBuffer._generate_idxs`:
`while len(start_idxs) < batch_size:` draw
`start_idx = np.random.randint(0, current_len - history_length)` (a `ValueError`
when `current_len - history_length <= 0`, otherwise the draw reduced into the
range), set `end_idx = start_idx + history_length`, retry when `start_idx` was
already picked or `np.any(dones[start_idx : end_idx - 1])`, and otherwise
append the pair.  Each loop iteration consumes one draw of the stream. -/
def generateIdxsAux (dones : ℕ → Bool) (current_len history_length batch_size : ℕ) :
    List ℕ → List ℕ → List ℕ → GenResult
  | draws, start_idxs, end_idxs =>
    if start_idxs.length < batch_size then
      if current_len ≤ history_length then
        GenResult.error
      else
        match draws with
        | [] => GenResult.exhausted
        | d :: rest =>
          let start_idx := d % (current_len - history_length)
          let end_idx := start_idx + history_length
          if start_idx ∈ start_idxs then
            generateIdxsAux dones current_len history_length batch_size rest start_idxs end_idxs
          else if (List.range (history_length - 1)).any (fun k => dones (start_idx + k)) then
            generateIdxsAux dones current_len history_length batch_size rest start_idxs end_idxs
          else
            generateIdxsAux dones current_len history_length batch_size rest
              (start_idxs ++ [start_idx]) (end_idxs ++ [end_idx])
    else GenResult.ok start_idxs end_idxs

/-- State of a `ReplayBuffer` after its lazy array allocation has happened
(the first `add` call): the construction parameters plus the circular cursor,
the current length and the four storage arrays. -/
structure ReplayBufferState (σ : Type) where
  maxlen : ℕ
  history_length : ℕ
  batch_size : ℕ
  current_idx : ℕ
  current_len : ℕ
  states : ℕ → σ
  actions : ℕ → ℤ
  rewards : ℕ → ℚ
  dones : ℕ → Bool

/-- Embedding of `ReplayBuffer.add`: store the transition at `current_idx`, then advance
`current_idx = (current_idx + 1) % maxlen` and
`current_len = min(current_len + 1, maxlen)`. -/
def ReplayBufferState.add (buf : ReplayBufferState σ) (state : σ) (action : ℤ)
    (reward : ℚ) (done : Bool) : ReplayBufferState σ :=
  { buf with
    states := Function.update buf.states buf.current_idx state
    actions := Function.update buf.actions buf.current_idx action
    rewards := Function.update buf.rewards buf.current_idx reward
    dones := Function.update buf.dones buf.current_idx done
    current_idx := (buf.current_idx + 1) % buf.maxlen
    current_len := min (buf.current_len + 1) buf.maxlen }

/-- A freshly constructed `ReplayBuffer(maxlen, history_length, batch_size)`:
`current_idx = 0`, `current_len = 0`; the arrays are `np.empty`, i.e. hold
arbitrary unspecified content, modelled by constant defaults. -/
def ReplayBufferState.mk0 (maxlen history_length batch_size : ℕ) (s0 : σ) :
    ReplayBufferState σ :=
  { maxlen := maxlen
    history_length := history_length
    batch_size := batch_size
    current_idx := 0
    current_len := 0
    states := fun _ => s0
    actions := fun _ => 0
    rewards := fun _ => 0
    dones := fun _ => false }

/-- A sequence of `add` calls, one per listed transition `(state, action,
reward, done)`. -/
def ReplayBufferState.addAll (buf : ReplayBufferState σ)
    (ts : List (σ × ℤ × ℚ × Bool)) : ReplayBufferState σ :=
  ts.foldl (fun b t => b.add t.1 t.2.1 t.2.2.1 t.2.2.2) buf

/-- Run of `ReplayBuffer._generate_idxs` on a buffer state with a given prefix of
the pseudorandom stream, starting from the empty accumulators. -/
def ReplayBufferState.generateIdxs (buf : ReplayBufferState σ) (draws : List ℕ) :
    GenResult :=
  generateIdxsAux buf.dones buf.current_len buf.history_length buf.batch_size draws [] []

/-- State of a `RingBuffer`: the stacking window `data` (a numpy array of
`maxlen` slots along axis 0) plus its capacity. -/
structure RingBufferState (σ : Type) where
  maxlen : ℕ
  data : List σ

/-- Model of `np.roll(a, -1, axis=0)`: every slot moves one position towards the front
and the first slot wraps around to the end. -/
def npRollNeg1 (l : List σ) : List σ := l.drop 1 ++ l.take 1

/-- Embedding of `RingBuffer.reset`: `data = np.zeros((maxlen,) + state_shape)`. -/
def RingBufferState.reset (rb : RingBufferState σ) (zero : σ) : RingBufferState σ :=
  { rb with data := List.replicate rb.maxlen zero }

/-- A freshly constructed `RingBuffer(state_shape, maxlen)` (the constructor
calls `reset`). -/
def RingBufferState.mk0 (maxlen : ℕ) (zero : σ) : RingBufferState σ :=
  { maxlen := maxlen, data := List.replicate maxlen zero }

/-- Embedding of `RingBuffer.append`: `data = np.roll(data, -1, axis=0)` followed by
`data[maxlen - 1] = np.squeeze(new)` (squeezing is the identity in this
shapeless model). -/
def RingBufferState.append (rb : RingBufferState σ) (s : σ) : RingBufferState σ :=
  { rb with data := (npRollNeg1 rb.data).set (rb.maxlen - 1) s }

/-- A sequence of `append` calls, one per listed state. -/
def RingBufferState.appendAll (rb : RingBufferState σ) (ss : List σ) :
    RingBufferState σ :=
  ss.foldl (fun b s => b.append s) rb

/-- The scan of `np.argmax` over the tail of the array: `i` is the index of the
head of `l` inside the full array, `best` the index of the running maximum and
`bestVal` its value; a strictly larger element replaces the running maximum, so
ties keep the earliest index. -/
def npArgmaxGo : List ℚ → ℕ → ℕ → ℚ → ℕ
  | [], _, best, _ => best
  | x :: xs, i, best, bestVal =>
    if bestVal < x then npArgmaxGo xs (i + 1) i x
    else npArgmaxGo xs (i + 1) best bestVal

/-- Model of `np.argmax` on a one-dimensional array: the first index holding the maximum
value (numpy raises on an empty array; the empty case is never reached by the
callers modelled here). -/
def npArgmax : List ℚ → ℕ
  | [] => 0
  | x :: xs => npArgmaxGo xs 1 0 x

/-- Embedding of `egreedy_police(Q_values, epsilon)`.  Here `draw` is the value
returned by `np.random.random()` (a float in `[0, 1)`) and `choiceDraw`
determines the uniformly random index `np.random.choice(np.arange(num_actions))`
picked in the exploration branch.  `np.squeeze` is the identity on a
one-dimensional array of two or more entries, but it squeezes a length-one
array down to a 0-d scalar, on which the exploration branch's `len()` raises
`TypeError`; `np.random.choice` and `np.argmax` raise `ValueError` on an empty
array.  A raised error is modelled as `none`. -/
def egreedy_police (Q_values : List ℚ) (epsilon : ℚ) (draw : ℚ)
    (choiceDraw : ℕ) : Option ℕ :=
  if draw ≤ epsilon then
    if Q_values.length = 1 then none
    else if Q_values.length = 0 then none
    else some (choiceDraw % Q_values.length)
  else
    if Q_values.length = 0 then none
    else some (npArgmax Q_values)

/-- The backward loop of `discounted_sum_rewards`: the input list is the
already reversed reward sequence, `s` the running `reward_sum`; each step sets
`reward_sum = reward + gamma * reward_sum` and appends it to the output. -/
def dsrGo (gamma : ℚ) : List ℚ → ℚ → List ℚ
  | [], _ => []
  | r :: rest, s => (r + gamma * s) :: dsrGo gamma rest (r + gamma * s)

/-- Embedding of `discounted_sum_rewards(rewards, gamma)`: run the backward loop over
`reversed(rewards)` starting from `reward_sum = 0`, then reverse the collected
list (`[::-1]`). -/
def discounted_sum_rewards (rewards : List ℚ) (gamma : ℚ) : List ℚ :=
  (dsrGo gamma rewards.reverse 0).reverse

/-- Embedding of `exponential_decay(epsilon_final, stop_exploration)`: precompute
`epsilon_step = -log(epsilon_final) / stop_exploration` and return the closure
`get_epsilon`, which yields `exp(-epsilon_step * step)` while
`step <= stop_exploration` and `epsilon_final` afterwards. -/
noncomputable def exponential_decay (epsilon_final stop_exploration : ℝ) :
    ℝ → ℝ :=
  let epsilon_step := -Real.log epsilon_final / stop_exploration
  fun step =>
    if step ≤ stop_exploration then Real.exp (-epsilon_step * step)
    else epsilon_final

/-- The augmented level list of `piecewise_linear_decay`:
`final_epsilons = [initial_value] + [initial_value * value for value in values]`. -/
def finalEpsilons (values : List ℚ) (initial_value : ℚ) : List ℚ :=
  initial_value :: values.map (fun value => initial_value * value)

/-- The quadruples scanned by the closure returned by `piecewise_linear_decay`:
`zip(boundaries[1:], boundaries[:-1], decay_rates, final_epsilons)` over the
augmented boundary list `[0] + boundaries`, where
`decay_steps = [end - start for start, end in zip(boundaries[:-1], boundaries[1:])]`
and `decay_rates = [-(start_e - final_e) / decay_step for ...]`. -/
def piecewiseQuads (boundaries values : List ℚ) (initial_value : ℚ) :
    List (ℚ × ℚ × ℚ × ℚ) :=
  let bs := 0 :: boundaries
  let fe := finalEpsilons values initial_value
  let decay_steps := List.zipWith (fun s e => e - s) bs.dropLast bs.tail
  let decay_rates :=
    List.zipWith (fun sf d => -(sf.1 - sf.2) / d) (fe.dropLast.zip fe.tail) decay_steps
  List.zipWith (fun bx my => (bx.1, bx.2, my.1, my.2)) (bs.tail.zip bs.dropLast)
    (decay_rates.zip fe)

/-- The segment scan of the closure `get_epsilon` returned by
`piecewise_linear_decay`: return `m * (x - x0) + y0` for the first quadruple
`(boundary, x0, m, y0)` with `x <= boundary`, and the last level
(`final_epsilons[-1]`) when `x` lies beyond every boundary. -/
def pwScanLoop : List (ℚ × ℚ × ℚ × ℚ) → ℚ → ℚ → ℚ
  | [], lastE, _ => lastE
  | (b, x0, m, y0) :: rest, lastE, x =>
    if x ≤ b then m * (x - x0) + y0 else pwScanLoop rest lastE x

/-- Embedding of `piecewise_linear_decay(boundaries, values, initial_value)`: the returned
closure `get_epsilon`. -/
def piecewise_linear_decay (boundaries values : List ℚ) (initial_value : ℚ) :
    ℚ → ℚ :=
  fun x =>
    pwScanLoop (piecewiseQuads boundaries values initial_value)
      ((finalEpsilons values initial_value).getLastD 0) x

/-- An all-`False` dones array (a buffer that never saw an episode end). -/
def noDones : ℕ → Bool := fun _ => false

/-- An all-`True` dones array (every stored transition ends its episode). -/
def allDones : ℕ → Bool := fun _ => true

/-- Invariant of the retry loop of `_generate_idxs`: if the accumulated
`start_idxs` are no more numerous than `batch_size`, are matched by
`end_idxs = start_idxs + history_length`, are pairwise distinct, and each lies
in range with no internal `done`, then any `ok` outcome of the loop satisfies
the same properties with exactly `batch_size` indices. -/
theorem generateIdxsAux_ok_inv (dones : ℕ → Bool) (cl hl bs : ℕ) :
    ∀ (draws s e starts ends : List ℕ),
      generateIdxsAux dones cl hl bs draws s e = GenResult.ok starts ends →
      s.length ≤ bs → e = s.map (fun a => a + hl) → s.Nodup →
      (∀ a ∈ s, a < cl - hl ∧ ∀ k, k < hl - 1 → dones (a + k) = false) →
      starts.length = bs ∧ ends = starts.map (fun a => a + hl) ∧ starts.Nodup ∧
        ∀ a ∈ starts, a < cl - hl ∧ ∀ k, k < hl - 1 → dones (a + k) = false := by
  intro draws
  induction draws with
  | nil =>
    intro s e starts ends h hlen he hnd hprop
    rw [generateIdxsAux] at h
    by_cases hc : s.length < bs
    · rw [if_pos hc] at h
      by_cases hch : cl ≤ hl
      · rw [if_pos hch] at h; exact absurd h (by simp)
      · rw [if_neg hch] at h; exact absurd h (by simp)
    · rw [if_neg hc] at h
      obtain ⟨rfl, rfl⟩ : s = starts ∧ e = ends := by
        cases h; exact ⟨rfl, rfl⟩
      exact ⟨by omega, he, hnd, hprop⟩
  | cons d rest ih =>
    intro s e starts ends h hlen he hnd hprop
    rw [generateIdxsAux] at h
    by_cases hc : s.length < bs
    · rw [if_pos hc] at h
      by_cases hch : cl ≤ hl
      · rw [if_pos hch] at h; exact absurd h (by simp)
      · rw [if_neg hch] at h
        simp only [] at h
        by_cases hmem : d % (cl - hl) ∈ s
        · rw [if_pos hmem] at h
          exact ih s e starts ends h hlen he hnd hprop
        · rw [if_neg hmem] at h
          by_cases hany :
              (List.range (hl - 1)).any (fun k => dones (d % (cl - hl) + k)) = true
          · rw [if_pos hany] at h
            exact ih s e starts ends h hlen he hnd hprop
          · rw [if_neg hany] at h
            refine ih _ _ starts ends h ?_ ?_ ?_ ?_
            · simpa using hc
            · simp [he]
            · simp [List.Nodup.append, hnd, hmem]
            · intro a ha
              rcases List.mem_append.mp ha with ha | ha
              · exact hprop a ha
              · have hae : a = d % (cl - hl) := by simpa using ha
                subst hae
                constructor
                · exact Nat.mod_lt _ (by omega)
                · intro k hk
                  have := (List.any_eq_true (l := List.range (hl - 1))).not.mp
                    (by simpa using hany)
                  push_neg at this
                  have hkmem : k ∈ List.range (hl - 1) := List.mem_range.mpr hk
                  have hres := this k hkmem
                  simpa using hres
    · rw [if_neg hc] at h
      obtain ⟨rfl, rfl⟩ : s = starts ∧ e = ends := by
        cases h; exact ⟨rfl, rfl⟩
      exact ⟨by omega, he, hnd, hprop⟩

/-- C1: every batch of windows `[start_idx, end_idx)` returned by the sampler
has `end_idx = start_idx + history_length`, and no index strictly inside a
window (every index except the final one `end_idx - 1`) carries `done = true`:
windows crossing an episode boundary are rejected and redrawn. -/
theorem replay_sample_no_internal_done (dones : ℕ → Bool)
    (cl hl bs : ℕ) (draws starts ends : List ℕ)
    (h : generateIdxsAux dones cl hl bs draws [] [] = GenResult.ok starts ends) :
    ends = starts.map (fun a => a + hl) ∧
      ∀ s ∈ starts, ∀ j, s ≤ j → j + 1 < s + hl → dones j = false := by
  obtain ⟨-, hmap, -, hprop⟩ :=
    generateIdxsAux_ok_inv dones cl hl bs draws [] [] starts ends h
      (by simp) (by simp) (by simp) (by simp)
  refine ⟨hmap, ?_⟩
  intro s hs j hsj hj
  obtain ⟨-, hdone⟩ := hprop s hs
  have hk : j - s < hl - 1 := by omega
  have := hdone (j - s) hk
  have hjs : s + (j - s) = j := by omega
  rwa [hjs] at this

/-- C1 witness: a concrete successful sample. -/
theorem replay_sample_no_internal_done_witness :
    ([1, 2] : List ℕ) = ([0, 1] : List ℕ).map (fun a => a + 1) ∧
      ∀ s ∈ ([0, 1] : List ℕ), ∀ j, s ≤ j → j + 1 < s + 1 → noDones j = false :=
  replay_sample_no_internal_done noDones 3 1 2 [0, 1] [0, 1] [1, 2] (by decide)

/-- C2: whenever `batch_size ≤ current_len - history_length`, every batch the
sampler returns holds exactly `batch_size` pairwise distinct start indices,
each drawn from `[0, current_len - history_length)`. -/
theorem replay_sample_distinct_idxs (dones : ℕ → Bool)
    (cl hl bs : ℕ) (draws starts ends : List ℕ)
    (hbs : bs ≤ cl - hl)
    (h : generateIdxsAux dones cl hl bs draws [] [] = GenResult.ok starts ends) :
    starts.length = bs ∧ starts.Nodup ∧ ∀ s ∈ starts, s < cl - hl := by
  obtain ⟨hlen, -, hnd, hprop⟩ :=
    generateIdxsAux_ok_inv dones cl hl bs draws [] [] starts ends h
      (by simp) (by simp) (by simp) (by simp)
  exact ⟨hlen, hnd, fun s hs => (hprop s hs).1⟩

/-- C2 witness: the concrete sample above has two distinct in-range indices. -/
theorem replay_sample_distinct_idxs_witness :
    ([0, 1] : List ℕ).length = 2 ∧ ([0, 1] : List ℕ).Nodup ∧
      ∀ s ∈ ([0, 1] : List ℕ), s < 3 - 1 :=
  replay_sample_distinct_idxs noDones 3 1 2 [0, 1] [0, 1] [1, 2] (by decide)
    (by decide)

/-- C4 counterexample: with `current_len = 1` and `history_length = 1` (the
buffer holds no more transitions than `history_length`), the sampler does not
enter a retry loop at all: `np.random.randint(0, current_len -
history_length)` raises a `ValueError` on its first call, so `sample()` fails
with an error instead of hanging. -/
theorem replay_sample_small_buffer_error :
    ((ReplayBufferState.mk0 2 1 1 (0 : ℚ)).add 0 0 0 false).generateIdxs [] =
      GenResult.error := by decide

/-- C4 amended: with a positive `batch_size`, a buffer holding no more
transitions than `history_length` makes `sample()` raise an error on the first
`np.random.randint` call, while a buffer in which every candidate window is
rejected for crossing an episode boundary makes the retry loop run forever: it
consumes every finite prefix of the pseudorandom stream without returning. -/
theorem replay_sample_pathological (dones : ℕ → Bool) (cl hl bs : ℕ)
    (hbs : 0 < bs) :
    (cl ≤ hl →
      ∀ draws, generateIdxsAux dones cl hl bs draws [] [] = GenResult.error) ∧
    (hl < cl →
      (∀ s, s < cl - hl →
        (List.range (hl - 1)).any (fun k => dones (s + k)) = true) →
      ∀ draws,
        generateIdxsAux dones cl hl bs draws [] [] = GenResult.exhausted) := by
  constructor
  · intro hch draws
    cases draws with
    | nil =>
      rw [generateIdxsAux]
      rw [if_pos (by simpa using hbs), if_pos hch]
    | cons d rest =>
      rw [generateIdxsAux]
      rw [if_pos (by simpa using hbs), if_pos hch]
  · intro hch hall draws
    induction draws with
    | nil =>
      rw [generateIdxsAux]
      rw [if_pos (by simpa using hbs), if_neg (by omega)]
    | cons d rest ih =>
      rw [generateIdxsAux]
      rw [if_pos (by simpa using hbs), if_neg (by omega)]
      simp only []
      rw [if_neg (by simp)]
      rw [if_pos (hall (d % (cl - hl)) (Nat.mod_lt _ (by omega)))]
      exact ih

/-- C4 amended witness: a concrete error run and a concrete forever-retry run. -/
theorem replay_sample_pathological_witness :
    generateIdxsAux allDones 1 1 1 [5] [] [] = GenResult.error ∧
      generateIdxsAux allDones 3 2 1 [0, 1] [] [] = GenResult.exhausted :=
  ⟨(replay_sample_pathological allDones 1 1 1 (by decide)).1 (by decide) [5],
    (replay_sample_pathological allDones 3 2 1 (by decide)).2 (by decide)
      (by decide) [0, 1]⟩

/-- Counter evolution of `ReplayBuffer.add` over any sequence of transitions:
the cursor advances modulo capacity, the length saturates at capacity, and the
capacity never changes. -/
theorem ReplayBufferState.addAll_counters :
    ∀ (ts : List (σ × ℤ × ℚ × Bool)) (buf : ReplayBufferState σ),
      0 < buf.maxlen → buf.current_idx < buf.maxlen →
      buf.current_len ≤ buf.maxlen →
      (buf.addAll ts).maxlen = buf.maxlen ∧
        (buf.addAll ts).current_idx = (buf.current_idx + ts.length) % buf.maxlen ∧
        (buf.addAll ts).current_len = min (buf.current_len + ts.length) buf.maxlen := by
  intro ts
  induction ts with
  | nil =>
    intro buf hm hidx hlen
    have h0 : buf.addAll [] = buf := rfl
    rw [h0]
    refine ⟨rfl, ?_, ?_⟩
    · simpa using (Nat.mod_eq_of_lt hidx).symm
    · simp only [List.length_nil]
      omega
  | cons t rest ih =>
    intro buf hm hidx hlen
    have hstep : buf.addAll (t :: rest) = (buf.add t.1 t.2.1 t.2.2.1 t.2.2.2).addAll rest := rfl
    have hm1 : 0 < (buf.add t.1 t.2.1 t.2.2.1 t.2.2.2).maxlen := hm
    have hidx1 : (buf.add t.1 t.2.1 t.2.2.1 t.2.2.2).current_idx <
        (buf.add t.1 t.2.1 t.2.2.1 t.2.2.2).maxlen := Nat.mod_lt _ hm
    have hlen1 : (buf.add t.1 t.2.1 t.2.2.1 t.2.2.2).current_len ≤
        (buf.add t.1 t.2.1 t.2.2.1 t.2.2.2).maxlen := by
      simp [ReplayBufferState.add]
    obtain ⟨h1, h2, h3⟩ := ih (buf.add t.1 t.2.1 t.2.2.1 t.2.2.2) hm1 hidx1 hlen1
    rw [hstep]
    refine ⟨h1, ?_, ?_⟩
    · rw [h2]
      show ((buf.current_idx + 1) % buf.maxlen + rest.length) % buf.maxlen = _
      rw [Nat.mod_add_mod]
      simp [Nat.add_assoc, Nat.add_comm 1 rest.length]
    · rw [h3]
      show min (min (buf.current_len + 1) buf.maxlen + rest.length) buf.maxlen = _
      simp only [List.length_cons]
      omega

/-- C8: starting from a freshly constructed buffer, after `k = ts.length`
calls to `add` the cursor equals `k % maxlen` and the length equals
`min k maxlen`: writes wrap circularly once the buffer is full and the
capacity stays fixed at the `maxlen` given at construction. -/
theorem replay_add_wraps (maxlen hl bs : ℕ) (s0 : σ)
    (ts : List (σ × ℤ × ℚ × Bool)) (hm : 0 < maxlen) :
    ((ReplayBufferState.mk0 maxlen hl bs s0).addAll ts).maxlen = maxlen ∧
      ((ReplayBufferState.mk0 maxlen hl bs s0).addAll ts).current_idx =
        ts.length % maxlen ∧
      ((ReplayBufferState.mk0 maxlen hl bs s0).addAll ts).current_len =
        min ts.length maxlen := by
  have h := ReplayBufferState.addAll_counters ts (ReplayBufferState.mk0 maxlen hl bs s0)
    (by simpa [ReplayBufferState.mk0] using hm)
    (by simpa [ReplayBufferState.mk0] using hm)
    (by simp [ReplayBufferState.mk0])
  simpa [ReplayBufferState.mk0] using h

/-- C8 witness: four adds into a capacity-3 buffer leave the cursor at
`4 % 3 = 1` and the length at `min 4 3 = 3`. -/
theorem replay_add_wraps_witness :
    ((ReplayBufferState.mk0 3 1 2 (0 : ℚ)).addAll
        [(1, 0, 0, false), (2, 0, 0, true), (3, 0, 0, false), (4, 0, 0, false)]).maxlen = 3 ∧
      ((ReplayBufferState.mk0 3 1 2 (0 : ℚ)).addAll
        [(1, 0, 0, false), (2, 0, 0, true), (3, 0, 0, false), (4, 0, 0, false)]).current_idx =
        ([(1, 0, 0, false), (2, 0, 0, true), (3, 0, 0, false), (4, 0, 0, false)] :
          List (ℚ × ℤ × ℚ × Bool)).length % 3 ∧
      ((ReplayBufferState.mk0 3 1 2 (0 : ℚ)).addAll
        [(1, 0, 0, false), (2, 0, 0, true), (3, 0, 0, false), (4, 0, 0, false)]).current_len =
        min ([(1, 0, 0, false), (2, 0, 0, true), (3, 0, 0, false), (4, 0, 0, false)] :
          List (ℚ × ℤ × ℚ × Bool)).length 3 :=
  replay_add_wraps 3 1 2 (0 : ℚ)
    [(1, 0, 0, false), (2, 0, 0, true), (3, 0, 0, false), (4, 0, 0, false)] (by decide)

/-- One `RingBuffer.append` on a full-capacity window drops the oldest slot
and installs the new state in the last slot. -/
theorem RingBufferState.append_data (rb : RingBufferState σ) (s : σ)
    (hfull : rb.data.length = rb.maxlen) (hm : 0 < rb.maxlen) :
    (rb.append s).data = rb.data.drop 1 ++ [s] := by
  obtain ⟨x, xs, hx⟩ : ∃ x xs, rb.data = x :: xs := by
    cases hd : rb.data with
    | nil => rw [hd] at hfull; simp at hfull; omega
    | cons x xs => exact ⟨x, xs, rfl⟩
  show (npRollNeg1 rb.data).set (rb.maxlen - 1) s = rb.data.drop 1 ++ [s]
  rw [hx]
  show (xs ++ [x]).set (rb.maxlen - 1) s = xs ++ [s]
  have hxs : xs.length = rb.maxlen - 1 := by
    rw [hx] at hfull; simp at hfull; omega
  rw [List.set_append_right _ _ (by omega)]
  rw [hxs]
  simp

/-- Folding `append` over a list of at most `maxlen` states drops as many of
the oldest slots as there are new states and installs the new states, in
order, at the end of the window. -/
theorem RingBufferState.appendAll_data :
    ∀ (ss : List σ) (rb : RingBufferState σ),
      rb.data.length = rb.maxlen → 0 < rb.maxlen → ss.length ≤ rb.maxlen →
      (rb.appendAll ss).data = rb.data.drop ss.length ++ ss ∧
        (rb.appendAll ss).maxlen = rb.maxlen := by
  intro ss
  induction ss with
  | nil => intro rb hfull hm hle; simp [RingBufferState.appendAll]
  | cons s rest ih =>
    intro rb hfull hm hle
    have hstep : rb.appendAll (s :: rest) = (rb.append s).appendAll rest := rfl
    have hdata := RingBufferState.append_data rb s hfull hm
    have hmax : (rb.append s).maxlen = rb.maxlen := rfl
    have hlen1 : (rb.append s).data.length = (rb.append s).maxlen := by
      rw [hdata, hmax, List.length_append, List.length_drop]
      simp only [List.length_cons, List.length_nil]
      omega
    obtain ⟨h1, h2⟩ := ih (rb.append s) hlen1 (by rw [hmax]; exact hm)
      (by rw [hmax]; simp at hle ⊢; omega)
    rw [hstep, h1, h2, hmax, hdata]
    refine ⟨?_, rfl⟩
    rw [List.drop_append_of_le_length (by simp at hle ⊢; omega)]
    rw [List.drop_drop]
    simp [Nat.add_comm]

/-- C9 counterexample: appending the two distinct states `1, 2` to a fresh
capacity-2 `RingBuffer` leaves `data = [1, 2]`: the oldest appended state
`s_1 = 1` still occupies slot 0 — it is not evicted; only the initial zeros
are gone. -/
theorem ringbuffer_oldest_kept :
    ((RingBufferState.mk0 2 (0 : ℚ)).appendAll [1, 2]).data = [1, 2] ∧
      (1 : ℚ) ∈ ((RingBufferState.mk0 2 (0 : ℚ)).appendAll [1, 2]).data := by
  refine ⟨?_, ?_⟩ <;> decide

/-- C9 amended: appending `maxlen` states `s_1 .. s_maxlen` to a fresh
`RingBuffer` evicts all the initial-zero content and leaves
`data = [s_1, .., s_maxlen]`, the newest state in the last stacking position
`maxlen - 1`; each single `append` shifts the stored states back one slot
(dropping slot 0) and installs the new state in the last slot; `reset`
restores the all-zero window. -/
theorem ringbuffer_fill (maxlen : ℕ) (zero : σ) (ss : List σ)
    (hm : 0 < maxlen) (hlen : ss.length = maxlen) :
    ((RingBufferState.mk0 maxlen zero).appendAll ss).data = ss ∧
      (RingBufferState.mk0 maxlen zero).data = List.replicate maxlen zero ∧
      (∀ (rb : RingBufferState σ) (s : σ),
        rb.data.length = rb.maxlen → 0 < rb.maxlen →
        (rb.append s).data = rb.data.drop 1 ++ [s]) ∧
      ∀ rb : RingBufferState σ, (rb.reset zero).data = List.replicate rb.maxlen zero := by
  refine ⟨?_, rfl, fun rb s h1 h2 => RingBufferState.append_data rb s h1 h2, fun rb => rfl⟩
  obtain ⟨h1, -⟩ := RingBufferState.appendAll_data ss (RingBufferState.mk0 maxlen zero)
    (by simp [RingBufferState.mk0]) hm (by simp [RingBufferState.mk0]; omega)
  rw [h1]
  have : (RingBufferState.mk0 maxlen zero).data.length = maxlen := by
    simp [RingBufferState.mk0]
  rw [List.drop_of_length_le (by omega)]
  rfl

/-- C9 amended witness: a concrete full fill of a capacity-2 window. -/
theorem ringbuffer_fill_witness :
    ((RingBufferState.mk0 2 (0 : ℚ)).appendAll [3, 7]).data = [3, 7] ∧
      (RingBufferState.mk0 2 (0 : ℚ)).data = List.replicate 2 (0 : ℚ) ∧
      (∀ (rb : RingBufferState ℚ) (s : ℚ),
        rb.data.length = rb.maxlen → 0 < rb.maxlen →
        (rb.append s).data = rb.data.drop 1 ++ [s]) ∧
      ∀ rb : RingBufferState ℚ, (rb.reset 0).data = List.replicate rb.maxlen (0 : ℚ) :=
  ringbuffer_fill 2 (0 : ℚ) [3, 7] (by decide) (by decide)

/-- Invariant of the `np.argmax` scan: entering the scan at position `k` with a
running maximum `bestVal` at the earliest index `best` of the prefix, the scan
returns the earliest index of the maximum of the whole array. -/
theorem npArgmaxGo_spec (q : List ℚ) :
    ∀ (n k best : ℕ) (bv : ℚ), n = q.length - k → best < k → k ≤ q.length →
      q.getD best 0 = bv →
      (∀ t, t < k → q.getD t 0 ≤ bv) →
      (∀ t, t < k → q.getD t 0 = bv → best ≤ t) →
      npArgmaxGo (q.drop k) k best bv < q.length ∧
        (∀ t, t < q.length → q.getD t 0 ≤ q.getD (npArgmaxGo (q.drop k) k best bv) 0) ∧
        (∀ t, t < q.length → q.getD t 0 = q.getD (npArgmaxGo (q.drop k) k best bv) 0 →
          npArgmaxGo (q.drop k) k best bv ≤ t) := by
  intro n
  induction n with
  | zero =>
    intro k best bv hn hbk hk hbv hub hfirst
    have hkq : k = q.length := by omega
    have hdrop : q.drop k = [] := by
      rw [hkq]; simp
    rw [hdrop]
    show best < q.length ∧ _ ∧ _
    rw [show npArgmaxGo [] k best bv = best from rfl]
    refine ⟨by omega, ?_, ?_⟩
    · intro t ht
      rw [hbv]
      exact hub t (by omega)
    · intro t ht heq
      rw [hbv] at heq
      exact hfirst t (by omega) heq
  | succ m ih =>
    intro k best bv hn hbk hk hbv hub hfirst
    have hklt : k < q.length := by omega
    have hdrop : q.drop k = q.getD k 0 :: q.drop (k + 1) := by
      rw [List.drop_eq_getElem_cons hklt, List.getD_eq_getElem q 0 hklt]
    rw [hdrop]
    by_cases hlt : bv < q.getD k 0
    · rw [show npArgmaxGo (q.getD k 0 :: q.drop (k + 1)) k best bv =
          npArgmaxGo (q.drop (k + 1)) (k + 1) k (q.getD k 0) from by
        rw [npArgmaxGo, if_pos hlt]]
      refine ih (k + 1) k (q.getD k 0) (by omega) (by omega) (by omega) rfl ?_ ?_
      · intro t ht
        rcases Nat.lt_succ_iff_lt_or_eq.mp ht with ht | ht
        · exact le_of_lt (lt_of_le_of_lt (hub t ht) hlt)
        · rw [ht]
      · intro t ht heq
        rcases Nat.lt_succ_iff_lt_or_eq.mp ht with ht | ht
        · exact absurd heq (by have := hub t ht; exact ne_of_lt (lt_of_le_of_lt this hlt))
        · omega
    · rw [show npArgmaxGo (q.getD k 0 :: q.drop (k + 1)) k best bv =
          npArgmaxGo (q.drop (k + 1)) (k + 1) best bv from by
        rw [npArgmaxGo, if_neg hlt]]
      refine ih (k + 1) best bv (by omega) (by omega) (by omega) hbv ?_ ?_
      · intro t ht
        rcases Nat.lt_succ_iff_lt_or_eq.mp ht with ht | ht
        · exact hub t ht
        · rw [ht]; exact not_lt.mp hlt
      · intro t ht heq
        rcases Nat.lt_succ_iff_lt_or_eq.mp ht with ht | ht
        · exact hfirst t ht heq
        · omega

/-- On a non-empty array `np.argmax` returns an in-range index holding the
maximum value, and the first such index. -/
theorem npArgmax_spec (q : List ℚ) (hq : q ≠ []) :
    npArgmax q < q.length ∧
      (∀ t, t < q.length → q.getD t 0 ≤ q.getD (npArgmax q) 0) ∧
      (∀ t, t < q.length → q.getD t 0 = q.getD (npArgmax q) 0 → npArgmax q ≤ t) := by
  match q, hq with
  | x :: xs, _ =>
    have hdrop : (x :: xs).drop 1 = xs := rfl
    have h := npArgmaxGo_spec (x :: xs) ((x :: xs).length - 1) 1 0 x rfl
      (by omega) (by simp) rfl
      (by intro t ht; interval_cases t; rfl)
      (by intro t ht heq; omega)
    rw [hdrop] at h
    exact h

/-- C3 counterexample: `np.random.random()` can return exactly `0.0`, and the
code tests `np.random.random() <= epsilon`, so with `epsilon = 0` and a zero
draw the exploration branch is taken: on `Q_values = [0, 1]` with random choice
index 0 the function returns `0`, which is not the index of the maximum
(`Q_values[0] < Q_values[1]`). -/
theorem egreedy_zero_draw_not_argmax :
    egreedy_police [(0 : ℚ), 1] 0 0 0 = some 0 ∧
      ([(0 : ℚ), 1]).getD 0 0 < ([(0 : ℚ), 1]).getD 1 0 := by
  constructor
  · rfl
  · show (0 : ℚ) < 1
    norm_num

/-- C3 amended: with `epsilon = 0` and any strictly positive value of the
`np.random.random()` draw, `egreedy_police` returns `np.argmax(Q_values)`: an
in-range index holding the maximum Q-value, ties broken by first occurrence
(only a draw of exactly `0.0` escapes to the exploration branch, because the
comparison is `<=`). -/
theorem egreedy_zero_eps_argmax (Q_values : List ℚ) (draw : ℚ) (choiceDraw : ℕ)
    (hq : Q_values ≠ []) (hd : 0 < draw) :
    egreedy_police Q_values 0 draw choiceDraw = some (npArgmax Q_values) ∧
      npArgmax Q_values < Q_values.length ∧
      (∀ t, t < Q_values.length →
        Q_values.getD t 0 ≤ Q_values.getD (npArgmax Q_values) 0) ∧
      (∀ t, t < Q_values.length →
        Q_values.getD t 0 = Q_values.getD (npArgmax Q_values) 0 →
        npArgmax Q_values ≤ t) := by
  have hlen0 : Q_values.length ≠ 0 := fun h => hq (List.eq_nil_of_length_eq_zero h)
  have hbranch : egreedy_police Q_values 0 draw choiceDraw = some (npArgmax Q_values) := by
    rw [egreedy_police, if_neg (not_le.mpr hd), if_neg hlen0]
  exact ⟨hbranch, npArgmax_spec Q_values hq⟩

/-- C3 amended witness: a concrete greedy selection with a tie. -/
theorem egreedy_zero_eps_argmax_witness :
    egreedy_police [(1 : ℚ), 3, 3, 2] 0 (1 / 2) 0 = some (npArgmax [(1 : ℚ), 3, 3, 2]) ∧
      npArgmax [(1 : ℚ), 3, 3, 2] < ([(1 : ℚ), 3, 3, 2]).length ∧
      (∀ t, t < ([(1 : ℚ), 3, 3, 2]).length →
        ([(1 : ℚ), 3, 3, 2]).getD t 0 ≤
          ([(1 : ℚ), 3, 3, 2]).getD (npArgmax [(1 : ℚ), 3, 3, 2]) 0) ∧
      (∀ t, t < ([(1 : ℚ), 3, 3, 2]).length →
        ([(1 : ℚ), 3, 3, 2]).getD t 0 =
          ([(1 : ℚ), 3, 3, 2]).getD (npArgmax [(1 : ℚ), 3, 3, 2]) 0 →
        npArgmax [(1 : ℚ), 3, 3, 2] ≤ t) :=
  egreedy_zero_eps_argmax [(1 : ℚ), 3, 3, 2] (1 / 2) 0 (by simp) (by norm_num)

/-- C10 counterexample: on the length-one array `Q_values = [1/2]` with
`epsilon = 1` and draw `1/2`, the exploration branch is taken and
`num_actions = len(np.squeeze(Q_values))` applies `len()` to a 0-d array,
which raises `TypeError` instead of returning an action index — so the claim
fails on this non-empty `Q_values`. -/
theorem egreedy_len_one_exploration_raises :
    egreedy_police [(1 : ℚ) / 2] 1 (1 / 2) 0 = none ∧
      ([(1 : ℚ) / 2] : List ℚ) ≠ [] := by
  constructor
  · rw [egreedy_police, if_pos (by norm_num)]
    simp
  · simp

/-- C10 amended: for a non-empty `Q_values` array the greedy branch always
returns the valid first-occurrence `np.argmax` index, and the exploration
branch returns the valid index drawn from `np.arange(num_actions)` whenever
`num_actions >= 2`; but on a length-one array the exploration branch raises
`TypeError`, because `np.squeeze` produces a 0-d array on which `len()` is
undefined. -/
theorem egreedy_police_branches (Q_values : List ℚ) (epsilon draw : ℚ)
    (choiceDraw : ℕ) (hq : Q_values ≠ []) :
    (epsilon < draw →
      egreedy_police Q_values epsilon draw choiceDraw = some (npArgmax Q_values) ∧
        npArgmax Q_values < Q_values.length) ∧
      (draw ≤ epsilon → 2 ≤ Q_values.length →
        egreedy_police Q_values epsilon draw choiceDraw =
            some (choiceDraw % Q_values.length) ∧
          choiceDraw % Q_values.length < Q_values.length) ∧
      (draw ≤ epsilon → Q_values.length = 1 →
        egreedy_police Q_values epsilon draw choiceDraw = none) := by
  have hlen0 : Q_values.length ≠ 0 := fun h => hq (List.eq_nil_of_length_eq_zero h)
  refine ⟨?_, ?_, ?_⟩
  · intro hlt
    refine ⟨?_, (npArgmax_spec Q_values hq).1⟩
    rw [egreedy_police, if_neg (not_le.mpr hlt), if_neg hlen0]
  · intro hle h2
    refine ⟨?_, Nat.mod_lt _ (by omega)⟩
    rw [egreedy_police, if_pos hle, if_neg (by omega), if_neg (by omega)]
  · intro hle h1
    rw [egreedy_police, if_pos hle, if_pos h1]

/-- C10 amended witness: a concrete non-empty two-action array. -/
theorem egreedy_police_branches_witness :
    ((1 : ℚ) / 2 < 3 / 4 →
      egreedy_police [(1 : ℚ), 2] (1 / 2) (3 / 4) 7 = some (npArgmax [(1 : ℚ), 2]) ∧
        npArgmax [(1 : ℚ), 2] < ([(1 : ℚ), 2]).length) ∧
      ((3 : ℚ) / 4 ≤ 1 / 2 → 2 ≤ ([(1 : ℚ), 2]).length →
        egreedy_police [(1 : ℚ), 2] (1 / 2) (3 / 4) 7 =
            some (7 % ([(1 : ℚ), 2]).length) ∧
          7 % ([(1 : ℚ), 2]).length < ([(1 : ℚ), 2]).length) ∧
      ((3 : ℚ) / 4 ≤ 1 / 2 → ([(1 : ℚ), 2]).length = 1 →
        egreedy_police [(1 : ℚ), 2] (1 / 2) (3 / 4) 7 = none) :=
  egreedy_police_branches [(1 : ℚ), 2] (1 / 2) (3 / 4) 7 (by simp)

/-- Forward-recursive characterization of the discounted-return sequence:
`G_t = r_t + gamma * G_(t+1)` with `G_n = 0` past the end. -/
def discForward (gamma : ℚ) : List ℚ → List ℚ
  | [] => []
  | r :: rs => (r + gamma * (discForward gamma rs).headD 0) :: discForward gamma rs

/-- The backward loop distributes over list append, the second part starting
from the accumulated `reward_sum` of the first. -/
theorem dsrGo_append (gamma : ℚ) :
    ∀ (l1 l2 : List ℚ) (s : ℚ),
      dsrGo gamma (l1 ++ l2) s =
        dsrGo gamma l1 s ++ dsrGo gamma l2 ((dsrGo gamma l1 s).getLastD s) := by
  intro l1
  induction l1 with
  | nil => intro l2 s; rfl
  | cons r rest ih =>
    intro l2 s
    show (r + gamma * s) :: dsrGo gamma (rest ++ l2) (r + gamma * s) = _
    rw [ih]
    rw [show dsrGo gamma (r :: rest) s = (r + gamma * s) :: dsrGo gamma rest (r + gamma * s)
      from rfl]
    rw [List.getLastD_cons]
    rfl

/-- The head of a reversed list is the last element of the list. -/
theorem reverse_headD (l : List α) (d : α) : l.reverse.headD d = l.getLastD d := by
  rw [List.headD_eq_head?, List.head?_reverse, List.getLastD_eq_getLast?]

/-- The loop-and-reverse implementation agrees with the forward recurrence. -/
theorem discounted_sum_rewards_eq_discForward :
    ∀ (rewards : List ℚ) (gamma : ℚ),
      discounted_sum_rewards rewards gamma = discForward gamma rewards := by
  intro rewards
  induction rewards with
  | nil => intro gamma; rfl
  | cons r rs ih =>
    intro gamma
    show (dsrGo gamma (r :: rs).reverse 0).reverse = _
    rw [List.reverse_cons, dsrGo_append]
    rw [List.reverse_append]
    rw [show dsrGo gamma [r] ((dsrGo gamma rs.reverse 0).getLastD 0) =
      [r + gamma * ((dsrGo gamma rs.reverse 0).getLastD 0)] from rfl]
    rw [show ([r + gamma * ((dsrGo gamma rs.reverse 0).getLastD 0)] : List ℚ).reverse =
      [r + gamma * ((dsrGo gamma rs.reverse 0).getLastD 0)] from rfl]
    have hw : (dsrGo gamma rs.reverse 0).getLastD 0 = (discForward gamma rs).headD 0 := by
      rw [← reverse_headD]
      have : (dsrGo gamma rs.reverse 0).reverse = discounted_sum_rewards rs gamma := rfl
      rw [this, ih]
    rw [hw]
    rw [show discForward gamma (r :: rs) =
      (r + gamma * (discForward gamma rs).headD 0) :: discForward gamma rs from rfl]
    rw [List.singleton_append]
    congr 1
    have : (dsrGo gamma rs.reverse 0).reverse = discounted_sum_rewards rs gamma := rfl
    rw [this, ih]

/-- The forward recurrence preserves length. -/
theorem discForward_length (gamma : ℚ) :
    ∀ l : List ℚ, (discForward gamma l).length = l.length := by
  intro l
  induction l with
  | nil => rfl
  | cons r rs ih => simp [discForward, ih]

/-- The head of a list with default equals its entry at index 0 with default. -/
theorem headD_eq_getD_zero (l : List α) (d : α) : l.headD d = l.getD 0 d := by
  cases l <;> rfl

/-- Entrywise recurrence of the forward form. -/
theorem discForward_getD (gamma : ℚ) :
    ∀ (l : List ℚ) (t : ℕ), t < l.length →
      (discForward gamma l).getD t 0 =
        l.getD t 0 + gamma * (discForward gamma l).getD (t + 1) 0 := by
  intro l
  induction l with
  | nil => intro t ht; simp at ht
  | cons r rs ih =>
    intro t ht
    cases t with
    | zero =>
      show (discForward gamma (r :: rs)).getD 0 0 = r + gamma * _
      rw [show discForward gamma (r :: rs) =
        (r + gamma * (discForward gamma rs).headD 0) :: discForward gamma rs from rfl]
      rw [show ((r + gamma * (discForward gamma rs).headD 0) ::
        discForward gamma rs).getD 0 0 = r + gamma * (discForward gamma rs).headD 0 from rfl]
      rw [show ((r + gamma * (discForward gamma rs).headD 0) ::
        discForward gamma rs).getD (0 + 1) 0 = (discForward gamma rs).getD 0 0 from rfl]
      rw [headD_eq_getD_zero]
    | succ u =>
      have hu : u < rs.length := by simpa using ht
      have := ih u hu
      rw [show discForward gamma (r :: rs) =
        (r + gamma * (discForward gamma rs).headD 0) :: discForward gamma rs from rfl]
      simpa using this

/-- C7: `discounted_sum_rewards` returns, in forward order, a sequence of the
same length satisfying `G_t = r_t + gamma * G_(t+1)` with `G_n = 0` past the
end (out-of-range entries read as 0); in particular
`discounted_sum_rewards([1,1,1], 0.5) = [1.75, 1.5, 1.0]`. -/
theorem discounted_sum_rewards_spec (rewards : List ℚ) (gamma : ℚ) :
    (discounted_sum_rewards rewards gamma).length = rewards.length ∧
      (∀ t, t < rewards.length →
        (discounted_sum_rewards rewards gamma).getD t 0 =
          rewards.getD t 0 + gamma * (discounted_sum_rewards rewards gamma).getD (t + 1) 0) ∧
      discounted_sum_rewards [1, 1, 1] (1 / 2) = [7 / 4, 3 / 2, 1] := by
  rw [discounted_sum_rewards_eq_discForward]
  refine ⟨discForward_length gamma rewards, discForward_getD gamma rewards, ?_⟩
  rw [discounted_sum_rewards_eq_discForward]
  norm_num [discForward]

/-- C7 witness: the recurrence evaluated at the head of the concrete example. -/
theorem discounted_sum_rewards_spec_witness :
    (discounted_sum_rewards [1, 1, 1] (1 / 2)).getD 0 0 =
      ([1, 1, 1] : List ℚ).getD 0 0 +
        (1 / 2) * (discounted_sum_rewards [1, 1, 1] (1 / 2)).getD (0 + 1) 0 :=
  (discounted_sum_rewards_spec [1, 1, 1] (1 / 2)).2.1 0 (by norm_num)

/-- C6: for `epsilon_final` in `(0,1)` and `stop_exploration > 0`, the closure
returned by `exponential_decay` computes
`epsilon_step = -log(epsilon_final) / stop_exploration`, returns
`exp(-epsilon_step * step)` for every `step <= stop_exploration` (in
particular `1.0` at step `0`), and returns `epsilon_final` exactly for every
`step > stop_exploration`, never decaying further. -/
theorem exponential_decay_spec (epsilon_final stop_exploration : ℝ)
    (h0 : 0 < epsilon_final) (h1 : epsilon_final < 1) (hs : 0 < stop_exploration) :
    exponential_decay epsilon_final stop_exploration 0 = 1 ∧
      (∀ step : ℝ, step ≤ stop_exploration →
        exponential_decay epsilon_final stop_exploration step =
          Real.exp (-(-Real.log epsilon_final / stop_exploration) * step)) ∧
      (∀ step : ℝ, stop_exploration < step →
        exponential_decay epsilon_final stop_exploration step = epsilon_final) := by
  refine ⟨?_, ?_, ?_⟩
  · show (if (0 : ℝ) ≤ stop_exploration then
      Real.exp (-(-Real.log epsilon_final / stop_exploration) * 0) else epsilon_final) = 1
    rw [if_pos (le_of_lt hs), mul_zero, Real.exp_zero]
  · intro step hstep
    show (if step ≤ stop_exploration then
      Real.exp (-(-Real.log epsilon_final / stop_exploration) * step) else epsilon_final) = _
    rw [if_pos hstep]
  · intro step hstep
    show (if step ≤ stop_exploration then
      Real.exp (-(-Real.log epsilon_final / stop_exploration) * step) else epsilon_final) = _
    rw [if_neg (not_le.mpr hstep)]

/-- C6 witness: the schedule with final value `1/2` over one step. -/
theorem exponential_decay_spec_witness :
    exponential_decay (1 / 2) 1 0 = 1 ∧
      (∀ step : ℝ, step ≤ 1 →
        exponential_decay (1 / 2) 1 step =
          Real.exp (-(-Real.log (1 / 2) / 1) * step)) ∧
      (∀ step : ℝ, 1 < step → exponential_decay (1 / 2) 1 step = 1 / 2) :=
  exponential_decay_spec (1 / 2) 1 (by norm_num) (by norm_num) (by norm_num)

/-- The zip-of-four construction of `piecewise_linear_decay`, as a function of
the augmented boundary list `[0] + boundaries` and of `final_epsilons`. -/
def pwZip (bl fe : List ℚ) : List (ℚ × ℚ × ℚ × ℚ) :=
  List.zipWith (fun bx my => (bx.1, bx.2, my.1, my.2)) (bl.tail.zip bl.dropLast)
    ((List.zipWith (fun sf d => -(sf.1 - sf.2) / d) (fe.dropLast.zip fe.tail)
      (List.zipWith (fun s e => e - s) bl.dropLast bl.tail)).zip fe)

/-- Structurally recursive form of the quadruple list: each segment carries its
right boundary, left boundary, slope and starting level. -/
def mkQuads : ℚ → ℚ → List ℚ → List ℚ → List (ℚ × ℚ × ℚ × ℚ)
  | _, _, [], _ => []
  | _, _, _ :: _, [] => []
  | pb, pf, b :: bs, f :: fs => (b, pb, -(pf - f) / (b - pb), pf) :: mkQuads b f bs fs

/-- The zip-of-four construction coincides with the recursive form. -/
theorem pwZip_eq_mkQuads :
    ∀ (bs fs : List ℚ) (pb pf : ℚ), pwZip (pb :: bs) (pf :: fs) = mkQuads pb pf bs fs := by
  intro bs
  induction bs with
  | nil =>
    intro fs pb pf
    simp [pwZip, mkQuads]
  | cons b bs' ih =>
    intro fs pb pf
    cases fs with
    | nil => simp [pwZip, mkQuads]
    | cons f fs' =>
      simp only [pwZip, List.tail_cons, List.dropLast_cons₂, List.zip_cons_cons,
        List.zipWith_cons_cons, mkQuads]
      rw [← ih fs' b f]
      simp only [pwZip, List.tail_cons]

/-- The source quadruples equal the recursive form on the scaled levels. -/
theorem piecewiseQuads_eq_mkQuads (boundaries values : List ℚ) (initial_value : ℚ) :
    piecewiseQuads boundaries values initial_value =
      mkQuads 0 initial_value boundaries (values.map (fun v => initial_value * v)) := by
  have h1 : piecewiseQuads boundaries values initial_value =
      pwZip (0 :: boundaries) (finalEpsilons values initial_value) := rfl
  rw [h1]
  exact pwZip_eq_mkQuads boundaries (values.map (fun v => initial_value * v)) 0 initial_value

/-- A chain of strict increases bounds every later element from below. -/
theorem chain_lt_getD (l : List ℚ) :
    ∀ a : ℚ, List.Chain (· < ·) a l → ∀ i, i < l.length → a < l.getD i 0 := by
  induction l with
  | nil => intro a h i hi; simp at hi
  | cons x xs ih =>
    intro a h i hi
    rw [List.chain_cons] at h
    obtain ⟨hax, hchain⟩ := h
    cases i with
    | zero => exact hax
    | succ j =>
      have hj : j < xs.length := by simpa using hi
      exact lt_trans hax (ih x hchain j hj)

/-- Adjacent elements of a strictly increasing chain increase. -/
theorem chain_getD_lt_succ (l : List ℚ) :
    ∀ a : ℚ, List.Chain (· < ·) a l → ∀ i, i + 1 < (a :: l).length →
      (a :: l).getD i 0 < (a :: l).getD (i + 1) 0 := by
  induction l with
  | nil => intro a h i hi; simp at hi
  | cons x xs ih =>
    intro a h i hi
    rw [List.chain_cons] at h
    obtain ⟨hax, hchain⟩ := h
    cases i with
    | zero => exact hax
    | succ j => exact ih x hchain j (by simpa using hi)

/-- Evaluating the segment scan at the `i`-th knot yields the `i`-th level
exactly. -/
theorem pwScan_mkQuads_knot :
    ∀ (bs : List ℚ) (pb pf : ℚ) (fs : List ℚ) (lastE : ℚ) (i : ℕ),
      fs.length = bs.length → i < bs.length → List.Chain (· < ·) pb bs →
      pwScanLoop (mkQuads pb pf bs fs) lastE (bs.getD i 0) = fs.getD i 0 := by
  intro bs
  induction bs with
  | nil => intro pb pf fs lastE i hlen hi; simp at hi
  | cons b bs' ih =>
    intro pb pf fs lastE i hlen hi hchain
    match fs, hlen with
    | f :: fs', hlen =>
      rw [List.chain_cons] at hchain
      obtain ⟨hpb, hchain'⟩ := hchain
      cases i with
      | zero =>
        show pwScanLoop ((b, pb, -(pf - f) / (b - pb), pf) :: mkQuads b f bs' fs') lastE b = f
        rw [pwScanLoop, if_pos (le_refl b)]
        have hne : b - pb ≠ 0 := sub_ne_zero.mpr (ne_of_gt hpb)
        rw [div_mul_cancel₀ _ hne]
        ring
      | succ j =>
        have hj : j < bs'.length := by simpa using hi
        have hbx : b < bs'.getD j 0 := chain_lt_getD bs' b hchain' j hj
        show pwScanLoop ((b, pb, -(pf - f) / (b - pb), pf) :: mkQuads b f bs' fs') lastE
          (bs'.getD j 0) = fs'.getD j 0
        rw [pwScanLoop, if_neg (not_le.mpr hbx)]
        exact ih b f fs' lastE j (by simpa using hlen) hj hchain'

/-- Beyond every boundary the segment scan falls through to the last level. -/
theorem pwScan_mkQuads_floor :
    ∀ (bs : List ℚ) (pb pf : ℚ) (fs : List ℚ) (lastE x : ℚ),
      (∀ b ∈ bs, b < x) →
      pwScanLoop (mkQuads pb pf bs fs) lastE x = lastE := by
  intro bs
  induction bs with
  | nil => intro pb pf fs lastE x h; rfl
  | cons b bs' ih =>
    intro pb pf fs lastE x h
    cases fs with
    | nil => rfl
    | cons f fs' =>
      show pwScanLoop ((b, pb, -(pf - f) / (b - pb), pf) :: mkQuads b f bs' fs') lastE x = lastE
      rw [pwScanLoop, if_neg (not_le.mpr (h b (by simp)))]
      exact ih b f fs' lastE x (fun y hy => h y (by simp [hy]))

/-- Length of the recursive quadruple list. -/
theorem mkQuads_length :
    ∀ (bs fs : List ℚ) (pb pf : ℚ), fs.length = bs.length →
      (mkQuads pb pf bs fs).length = bs.length := by
  intro bs
  induction bs with
  | nil => intro fs pb pf hlen; rfl
  | cons b bs' ih =>
    intro fs pb pf hlen
    match fs, hlen with
    | f :: fs', hlen =>
      show (mkQuads pb pf (b :: bs') (f :: fs')).length = bs'.length + 1
      rw [show mkQuads pb pf (b :: bs') (f :: fs') =
        (b, pb, -(pf - f) / (b - pb), pf) :: mkQuads b f bs' fs' from rfl]
      rw [List.length_cons, ih fs' b f (by simpa using hlen)]

/-- Entry `i` of the recursive quadruple list in terms of the augmented
boundary and level lists. -/
theorem mkQuads_getD :
    ∀ (bs fs : List ℚ) (pb pf : ℚ) (i : ℕ), fs.length = bs.length → i < bs.length →
      (mkQuads pb pf bs fs).getD i (0, 0, 0, 0) =
        ((pb :: bs).getD (i + 1) 0, (pb :: bs).getD i 0,
          -((pf :: fs).getD i 0 - (pf :: fs).getD (i + 1) 0) /
            ((pb :: bs).getD (i + 1) 0 - (pb :: bs).getD i 0),
          (pf :: fs).getD i 0) := by
  intro bs
  induction bs with
  | nil => intro fs pb pf i hlen hi; simp at hi
  | cons b bs' ih =>
    intro fs pb pf i hlen hi
    match fs, hlen with
    | f :: fs', hlen =>
      cases i with
      | zero => rfl
      | succ j =>
        have hj : j < bs'.length := by simpa using hi
        exact ih fs' b f j (by simpa using hlen) hj

/-- The last level of a scaled non-empty list of values. -/
theorem map_mul_getLastD :
    ∀ (l : List ℚ) (c d : ℚ), l ≠ [] →
      (l.map (fun v => c * v)).getLastD d = c * l.getLastD 0 := by
  intro l
  induction l with
  | nil => intro c d h; exact absurd rfl h
  | cons v vs ih =>
    intro c d h
    cases vs with
    | nil => rfl
    | cons w ws =>
      rw [show (v :: w :: ws).map (fun v => c * v) =
        (c * v) :: (w :: ws).map (fun v => c * v) from rfl]
      rw [List.getLastD_cons, ih c (c * v) (by simp)]
      rw [show (v :: w :: ws).getLastD 0 = (w :: ws).getLastD v from List.getLastD_cons _ _ _]
      congr 1

/-- The entry `final_epsilons[-1]` is the scaled last target value. -/
theorem finalEpsilons_getLastD (values : List ℚ) (initial_value : ℚ)
    (h : values ≠ []) :
    (finalEpsilons values initial_value).getLastD 0 = initial_value * values.getLastD 0 := by
  show (initial_value :: values.map (fun v => initial_value * v)).getLastD 0 = _
  rw [List.getLastD_cons]
  exact map_mul_getLastD values initial_value initial_value h

/-- Scaling commutes with in-range list indexing. -/
theorem map_mul_getD (values : List ℚ) (c : ℚ) (i : ℕ) (hi : i < values.length) :
    (values.map (fun v => c * v)).getD i 0 = c * values.getD i 0 := by
  rw [List.getD_eq_getElem _ _ (by simpa using hi), List.getD_eq_getElem _ _ hi,
    List.getElem_map]

/-- C5: for strictly increasing positive boundaries with matching values, the
schedule returned by `piecewise_linear_decay` hits every knot exactly
(`get_epsilon(boundaries[i]) = initial_value * values[i]`), adjacent segments
agree at their shared boundary (no jump: the formula `m * (x - x0) + y0` of
segment `i` and of segment `i + 1`, both evaluated at the right boundary of
segment `i`, coincide), and every `x` beyond all boundaries yields the last
target value `initial_value * values[-1]`. -/
theorem piecewise_linear_decay_spec (boundaries values : List ℚ)
    (initial_value : ℚ) (hne : boundaries ≠ [])
    (hlen : values.length = boundaries.length)
    (hchain : List.Chain (· < ·) 0 boundaries) :
    (∀ i, i < boundaries.length →
      piecewise_linear_decay boundaries values initial_value (boundaries.getD i 0) =
        initial_value * values.getD i 0) ∧
      (∀ i, i + 1 < (piecewiseQuads boundaries values initial_value).length →
        ((piecewiseQuads boundaries values initial_value).getD i (0, 0, 0, 0)).2.2.1 *
            (((piecewiseQuads boundaries values initial_value).getD i (0, 0, 0, 0)).1 -
              ((piecewiseQuads boundaries values initial_value).getD i (0, 0, 0, 0)).2.1) +
            ((piecewiseQuads boundaries values initial_value).getD i (0, 0, 0, 0)).2.2.2 =
          ((piecewiseQuads boundaries values initial_value).getD (i + 1) (0, 0, 0, 0)).2.2.1 *
            (((piecewiseQuads boundaries values initial_value).getD i (0, 0, 0, 0)).1 -
              ((piecewiseQuads boundaries values initial_value).getD (i + 1) (0, 0, 0, 0)).2.1) +
            ((piecewiseQuads boundaries values initial_value).getD (i + 1) (0, 0, 0, 0)).2.2.2) ∧
      ∀ x, (∀ b ∈ boundaries, b < x) →
        piecewise_linear_decay boundaries values initial_value x =
          initial_value * values.getLastD 0 := by
  have hq := piecewiseQuads_eq_mkQuads boundaries values initial_value
  have hmaplen : (values.map (fun v => initial_value * v)).length = boundaries.length := by
    rw [List.length_map]; exact hlen
  refine ⟨?_, ?_, ?_⟩
  · intro i hi
    show pwScanLoop (piecewiseQuads boundaries values initial_value)
      ((finalEpsilons values initial_value).getLastD 0) (boundaries.getD i 0) = _
    rw [hq]
    rw [pwScan_mkQuads_knot boundaries 0 initial_value
      (values.map (fun v => initial_value * v)) _ i hmaplen hi hchain]
    exact map_mul_getD values initial_value i (by omega)
  · intro i hi
    rw [hq] at hi ⊢
    rw [mkQuads_length boundaries (values.map (fun v => initial_value * v)) 0
      initial_value hmaplen] at hi
    rw [mkQuads_getD boundaries (values.map (fun v => initial_value * v)) 0
      initial_value i hmaplen (by omega)]
    rw [mkQuads_getD boundaries (values.map (fun v => initial_value * v)) 0
      initial_value (i + 1) hmaplen (by omega)]
    have hadj : (0 :: boundaries).getD i 0 < (0 :: boundaries).getD (i + 1) 0 :=
      chain_getD_lt_succ boundaries 0 hchain i (by simp; omega)
    have hne2 : (0 :: boundaries).getD (i + 1) 0 - (0 :: boundaries).getD i 0 ≠ 0 :=
      sub_ne_zero.mpr (ne_of_gt hadj)
    show -((initial_value :: _).getD i 0 - (initial_value :: _).getD (i + 1) 0) /
        ((0 :: boundaries).getD (i + 1) 0 - (0 :: boundaries).getD i 0) *
        ((0 :: boundaries).getD (i + 1) 0 - (0 :: boundaries).getD i 0) +
        (initial_value :: _).getD i 0 = _
    rw [div_mul_cancel₀ _ hne2]
    rw [sub_self, mul_zero, zero_add]
    ring
  · intro x hx
    show pwScanLoop (piecewiseQuads boundaries values initial_value)
      ((finalEpsilons values initial_value).getLastD 0) x = _
    rw [hq]
    rw [pwScan_mkQuads_floor boundaries 0 initial_value
      (values.map (fun v => initial_value * v)) _ x hx]
    exact finalEpsilons_getLastD values initial_value
      (by intro hv; rw [hv] at hlen; simp at hlen; exact hne (List.eq_nil_of_length_eq_zero hlen.symm))

/-- C5 witness: the two-segment schedule through `(1, 1/2)` and `(2, 1/4)`. -/
theorem piecewise_linear_decay_spec_witness :
    (∀ i, i < ([1, 2] : List ℚ).length →
      piecewise_linear_decay [1, 2] [1 / 2, 1 / 4] 1 (([1, 2] : List ℚ).getD i 0) =
        1 * ([1 / 2, 1 / 4] : List ℚ).getD i 0) ∧
      (∀ i, i + 1 < (piecewiseQuads [1, 2] [1 / 2, 1 / 4] 1).length →
        ((piecewiseQuads [1, 2] [1 / 2, 1 / 4] 1).getD i (0, 0, 0, 0)).2.2.1 *
            (((piecewiseQuads [1, 2] [1 / 2, 1 / 4] 1).getD i (0, 0, 0, 0)).1 -
              ((piecewiseQuads [1, 2] [1 / 2, 1 / 4] 1).getD i (0, 0, 0, 0)).2.1) +
            ((piecewiseQuads [1, 2] [1 / 2, 1 / 4] 1).getD i (0, 0, 0, 0)).2.2.2 =
          ((piecewiseQuads [1, 2] [1 / 2, 1 / 4] 1).getD (i + 1) (0, 0, 0, 0)).2.2.1 *
            (((piecewiseQuads [1, 2] [1 / 2, 1 / 4] 1).getD i (0, 0, 0, 0)).1 -
              ((piecewiseQuads [1, 2] [1 / 2, 1 / 4] 1).getD (i + 1) (0, 0, 0, 0)).2.1) +
            ((piecewiseQuads [1, 2] [1 / 2, 1 / 4] 1).getD (i + 1) (0, 0, 0, 0)).2.2.2) ∧
      ∀ x, (∀ b ∈ ([1, 2] : List ℚ), b < x) →
        piecewise_linear_decay [1, 2] [1 / 2, 1 / 4] 1 x =
          1 * ([1 / 2, 1 / 4] : List ℚ).getLastD 0 :=
  piecewise_linear_decay_spec [1, 2] [1 / 2, 1 / 4] 1 (by simp) (by simp)
    (by norm_num [List.chain_cons])
